import Mathlib

/-!
Verification of the BCa (bias-corrected and accelerated) bootstrap
confidence-interval estimator of `scripts/calculate_bca_confidence.py`.

The two functions under study, `jackknife_bias_acceleration` and
`bca_bootstrap`, are shallowly embedded over `ℚ`.  The numerical
primitives the script takes from numpy/scipy — the global pseudo-random
generator, `scipy.stats.norm.ppf`, `scipy.stats.norm.cdf`, the real
square root used by `x ** 1.5` and `np.std` — are library code, not code
of this repository; they are modelled as parameters collected in a
`NumEnv` record, so every theorem is stated for an arbitrary (or
suitably constrained) choice of these primitives.  The global numpy RNG
state is threaded explicitly: `bca_bootstrap` receives the state the
process had before the call and returns the state it leaves behind,
exactly as `np.random.seed` / `np.random.choice` mutate the process-wide
generator.
-/

/-- A statistic: a pure function from a sample to a scalar, the
`statistic_func` parameter of the Python code. -/
abbrev Stat := List ℚ → ℚ

/-- The numpy/scipy primitives used by `calculate_bca_confidence.py`:
`rngNext` is one step of the global pseudo-random generator (returns a
drawn value and the successor state), `seedOf` maps the argument of
`np.random.seed` to the state it installs, `ppf`/`cdf` stand for
`scipy.stats.norm.ppf`/`scipy.stats.norm.cdf`, and `sqrtQ` is the square
root used by the float operations `x ** 1.5` and `np.std`. -/
structure NumEnv where
  rngNext : ℕ → ℕ × ℕ
  seedOf : ℕ → ℕ
  ppf : ℚ → ℚ
  cdf : ℚ → ℚ
  sqrtQ : ℚ → ℚ

/-- The epsilon `1e-10` used by both degeneracy guards in the script. -/
def epsTen : ℚ := 1 / 10000000000

/-- The clamp `max(0.001, min(0.999, p))` applied by the script to the
bias-correction proportion and to both adjusted probabilities. -/
def probClamp (p : ℚ) : ℚ := max (1 / 1000) (min (999 / 1000) p)

/-- The power `x ** 1.5` as computed by the script on a nonnegative float:
`s ** 1.5 = s * sqrt s`, with the square root taken from the
environment. -/
def pow15 (E : NumEnv) (s : ℚ) : ℚ := s * E.sqrtQ s

/-- Arithmetic mean, `np.mean` (division by zero yields the junk value
`0` on the empty list, which the script never hits). -/
def npMean (xs : List ℚ) : ℚ := xs.sum / (xs.length : ℚ)

/-- The `accuracy_statistic` the repository feeds to the estimator:
the arithmetic mean of the sample. -/
def meanStat : Stat := npMean

/-- One bootstrap resample: `np.random.choice(data, size=count, replace=True)`
drawing `count` elements, each selected by one generator step reduced
modulo `len(data)`.  Returns the resample and the advanced RNG state. -/
def drawSample (E : NumEnv) (data : List ℚ) : ℕ → ℕ → List ℚ × ℕ
  | 0, g => ([], g)
  | k + 1, g =>
    let step := E.rngNext g
    let x := data.getD (step.1 % data.length) 0
    let rest := drawSample E data k step.2
    (x :: rest.1, rest.2)

/-- The bootstrap loop of `bca_bootstrap`: `B` resamples of size
`len(data)`, each mapped through the statistic, in draw order. -/
def bootstrapEstimates (E : NumEnv) (data : List ℚ) (f : Stat) : ℕ → ℕ → List ℚ × ℕ
  | 0, g => ([], g)
  | k + 1, g =>
    let s := drawSample E data data.length g
    let rest := bootstrapEstimates E data f k s.2
    (f s.1 :: rest.1, rest.2)

/-- Embedding of `jackknife_bias_acceleration(data, statistic_func)` of
`scripts/calculate_bca_confidence.py`: the jackknife estimate of the
bias-correction `z0` and acceleration `a`.  Mirrors the source line by
line: the `n < 5` early return, the leave-one-out replicates
`np.concatenate([data[:i], data[i+1:]])`, the clamped proportion fed to
`norm.ppf`, and the acceleration guarded by `abs(denominator) > 1e-10`. -/
def jackknife_bias_acceleration (E : NumEnv) (data : List ℚ) (f : Stat) : ℚ × ℚ :=
  let n := data.length
  if n < 5 then (0, 0)
  else
    let theta_hat := f data
    let jackknife_estimates := (List.range n).map (fun i => f (data.take i ++ data.drop (i + 1)))
    let theta_dot := npMean jackknife_estimates
    let proportion : ℚ := ((jackknife_estimates.filter (fun r => r < theta_hat)).length : ℚ) / n
    let z0 := E.ppf (probClamp proportion)
    let numerator := (jackknife_estimates.map (fun r => (theta_dot - r) ^ 3)).sum
    let denominator := 6 * pow15 E ((jackknife_estimates.map (fun r => (theta_dot - r) ^ 2)).sum)
    let a := if epsTen < |denominator| then numerator / denominator else 0
    (z0, a)

/-- The record returned by a successful `bca_bootstrap` call: exactly
the keys of the Python result dict. -/
structure BcaRecord where
  lower_bound : ℚ
  upper_bound : ℚ
  bias_correction_z0 : ℚ
  acceleration_a : ℚ
  bootstrap_mean : ℚ
  bootstrap_std : ℚ
  alpha1 : ℚ
  alpha2 : ℚ
  original_estimate : ℚ
  bootstrap_samples : ℕ
  deriving DecidableEq, Repr

/-- Outcome of a `bca_bootstrap` call: the structured error dict
the Python error dict carrying the sample-too-small message, an uncaught
numpy exception from `np.percentile` on an empty bootstrap distribution
(`n_bootstrap = 0`) or an out-of-range percentile query, or the result
record. -/
inductive BcaResult where
  | insufficientSample (n : ℕ)
  | percentileError
  | record (r : BcaRecord)
  deriving DecidableEq, Repr

/-- Whether a `BcaResult` is a computed record. -/
def BcaResult.isRecord : BcaResult → Bool
  | .record _ => true
  | _ => false

/-- Index arithmetic of `np.percentile(arr, q)` with the default linear interpolation:
index `h = q/100 * (len-1)` into the sorted array, reading `s[k]`
and `s[k+1]` with the read index clamped to the last valid position. -/
def clampedGet (s : List ℚ) (i : ℕ) : ℚ := s.getD (min i (s.length - 1)) 0

/-- Linear interpolation of the sorted array `s` at fractional index `h`. -/
def interpAt (s : List ℚ) (h : ℚ) : ℚ :=
  let k := (⌊h⌋).toNat
  let v0 := clampedGet s k
  let v1 := clampedGet s (k + 1)
  v0 + (h - (k : ℚ)) * (v1 - v0)

/-- Embedding of `np.percentile(arr, q)`: `none` models the exception numpy raises on
an empty array or a percentile outside `[0, 100]`. -/
def percentile (l : List ℚ) (q : ℚ) : Option ℚ :=
  if l.isEmpty ∨ q < 0 ∨ 100 < q then none
  else some (interpAt (l.insertionSort (· ≤ ·)) (q * ((l.length - 1 : ℕ) : ℚ) / 100))

/-- Embedding of `np.std(arr)` (population standard deviation): square root of the
mean squared deviation. -/
def npStd (E : NumEnv) (xs : List ℚ) : ℚ :=
  E.sqrtQ (npMean (xs.map (fun x => (x - npMean xs) ^ 2)))

/-- Embedding of `bca_bootstrap(data, statistic_func, n_bootstrap, alpha)` of
`scripts/calculate_bca_confidence.py`.  The extra argument `g` is the
global numpy RNG state before the call; the second component of the
result is the global state after it.  Mirrors the source: the `n < 5`
early return (before any seeding or resampling), `np.random.seed(42)`,
the resampling loop, the jackknife call, the two BCa denominators with
the `1e-10` fallback to plain percentile probabilities, the clamping of
the adjusted probabilities (on the BCa branch only, as in the source),
and the two `np.percentile` queries.  A negative Python `n_bootstrap`
behaves like `0` (`range` is empty), so `B : ℕ` loses nothing. -/
def bca_bootstrap (E : NumEnv) (data : List ℚ) (f : Stat) (B : ℕ) (alpha : ℚ)
    (g : ℕ) : BcaResult × ℕ :=
  let n := data.length
  if n < 5 then (.insufficientSample n, g)
  else
    let g0 := E.seedOf 42
    let boot := bootstrapEstimates E data f B g0
    let zA := jackknife_bias_acceleration E data f
    let z0 := zA.1
    let a := zA.2
    let z_alpha_2 := E.ppf (alpha / 2)
    let z_1_alpha_2 := E.ppf (1 - alpha / 2)
    let denom1 := 1 - a * (z0 + z_alpha_2)
    let denom2 := 1 - a * (z0 + z_1_alpha_2)
    let alphas :=
      if |denom1| < epsTen ∨ |denom2| < epsTen then (alpha / 2, 1 - alpha / 2)
      else (probClamp (E.cdf (z0 + (z0 + z_alpha_2) / denom1)),
            probClamp (E.cdf (z0 + (z0 + z_1_alpha_2) / denom2)))
    match percentile boot.1 (alphas.1 * 100), percentile boot.1 (alphas.2 * 100) with
    | some lo, some hi =>
        (.record
          { lower_bound := lo
            upper_bound := hi
            bias_correction_z0 := z0
            acceleration_a := a
            bootstrap_mean := npMean boot.1
            bootstrap_std := npStd E boot.1
            alpha1 := alphas.1
            alpha2 := alphas.2
            original_estimate := f data
            bootstrap_samples := B }, boot.2)
    | _, _ => (.percentileError, boot.2)

/-- Whether a given invocation of `bca_bootstrap` takes the percentile
fallback: the degeneracy test the script performs on the two BCa
denominators, recomputed from the same inputs. -/
def bcaFallbackTaken (E : NumEnv) (data : List ℚ) (f : Stat) (alpha : ℚ) : Bool :=
  let zA := jackknife_bias_acceleration E data f
  decide (|1 - zA.2 * (zA.1 + E.ppf (alpha / 2))| < epsTen ∨
          |1 - zA.2 * (zA.1 + E.ppf (1 - alpha / 2))| < epsTen)

/-- Fallback detection from the side of the caller: using only fields of the
returned record (`acceleration_a`, `bias_correction_z0`) together with
the arguments the caller itself supplied (`alpha` and the normal
quantile function), recompute the degeneracy test. -/
def detectFallback (E : NumEnv) (r : BcaRecord) (alpha : ℚ) : Bool :=
  decide (|1 - r.acceleration_a * (r.bias_correction_z0 + E.ppf (alpha / 2))| < epsTen ∨
          |1 - r.acceleration_a * (r.bias_correction_z0 + E.ppf (1 - alpha / 2))| < epsTen)

/-- The lower bound carried by a result record (junk `0` otherwise). -/
def BcaResult.lowerD : BcaResult → ℚ
  | .record r => r.lower_bound
  | _ => 0

/-- The upper bound carried by a result record (junk `0` otherwise). -/
def BcaResult.upperD : BcaResult → ℚ
  | .record r => r.upper_bound
  | _ => 0

/-- The jackknife bias/acceleration estimator transcribed from the
words of spec §4.1 (for comparison with the source-derived
`jackknife_bias_acceleration`): replicates as "data with index i
removed", `p = count(jackknife replicates < theta_hat) / n` clamped
into `[0.001, 0.999]`, `z0 = inverse_standard_normal_cdf(p)`, and
`a = numerator / denominator` when `|denominator| > 1e-10`, else `0`,
with `denominator = 6 * (sum((theta_dot - theta_(i))^2))^1.5`. -/
def jackknife_spec (E : NumEnv) (data : List ℚ) (f : Stat) : ℚ × ℚ :=
  let n := data.length
  let theta_hat := f data
  let reps := (List.range n).map (fun i => f (data.eraseIdx i))
  let theta_dot := reps.sum / (n : ℚ)
  let p : ℚ := ((reps.filter (fun r => r < theta_hat)).length : ℚ) / n
  let pc := if p < 1 / 1000 then 1 / 1000 else if 999 / 1000 < p then 999 / 1000 else p
  let z0 := E.ppf pc
  let sumsq := (reps.map (fun r => (theta_dot - r) ^ 2)).sum
  let numerator := (reps.map (fun r => (theta_dot - r) ^ 3)).sum
  let denominator := 6 * (sumsq * E.sqrtQ sumsq)
  let a := if epsTen < |denominator| then numerator / denominator else 0
  (z0, a)

/-- A simple concrete environment used to instantiate witnesses: a
counter RNG, identity seeding and quantile functions, and a square-root
stand-in `s + 1` (which over-approximates the square root on the
nonnegative rationals). -/
def idEnv : NumEnv where
  rngNext := fun g => (g, g + 1)
  seedOf := id
  ppf := id
  cdf := id
  sqrtQ := fun s => s + 1

/-- An environment for the extreme-`alpha` counterexamples.  The
quantile, distribution and square-root tables agree with the true
`scipy.stats.norm.ppf`, `scipy.stats.norm.cdf` and `sqrt` to within
about `5e-3` at every point the runs below actually query
(`ppf(0.999) = 3.0902` vs `3.090232`, `ppf(2.4e-9) = -5.86` vs
`-5.857`, `ppf(0.025) = -1.96` vs `-1.95996`, `cdf(0.9753) = 0.8353`
vs `0.835337`, `sqrt(20) = 4.47214` vs `4.472136`, …) and are
monotone, so the behaviour exhibited is the genuine behaviour of the
script: with these replicate values the true acceleration is
`60 / (6 * 20^1.5) = 0.1118034`, and the true `a * (z0 + z_hi)` at
`alpha = 4.8e-9` is about `1.0003 > 1`, flipping the sign of the
second BCa denominator exactly as the rational tables do. -/
def ceEnv : NumEnv where
  rngNext := fun g => (g, (31 * g + 7) % 101)
  seedOf := id
  ppf := fun p =>
    if p ≤ 1 / 100000000 then -(586 / 100)
    else if p ≤ 1 / 1000 then -(30902 / 10000)
    else if p ≤ 1 / 40 then -(196 / 100)
    else if p < 39 / 40 then 0
    else if p < 999 / 1000 then 196 / 100
    else if p < 1 - 1 / 100000000 then 30902 / 10000
    else 586 / 100
  cdf := fun z =>
    if z < 0 then 1 / 10000000 else if z < 2 then 8353 / 10000 else 9999 / 10000
  sqrtQ := fun s => if s = 20 then 447214 / 100000 else s + 1

/-- The sample used by the extreme-`alpha` counterexamples. -/
def ceData : List ℚ := [1, 2, 3, 4, 5]

/-- The statistic used by the extreme-`alpha` counterexamples: a pure
function of the sample, chosen so that the full-sample estimate sits
above all jackknife replicates (`p` clamps to `0.999`) and the
replicates are maximally skewed (`a = 0.1118`). -/
def ceStat : Stat := fun xs =>
  if xs = ceData then 1000
  else if xs.length = 4 then (if xs.headD 0 = 2 then 96 else 101)
  else xs.headD 0

section Helpers

/-- The clamp `probClamp` lands in `[0.001, 0.999]`. -/
theorem probClamp_mem (p : ℚ) : 1 / 1000 ≤ probClamp p ∧ probClamp p ≤ 999 / 1000 := by
  refine ⟨le_max_left _ _, max_le (by norm_num) (min_le_left _ _)⟩

/-- The clamp `probClamp` written as the two-sided conditional the spec describes. -/
theorem probClamp_eq_ite (p : ℚ) :
    probClamp p = if p < 1 / 1000 then 1 / 1000 else if 999 / 1000 < p then 999 / 1000 else p := by
  unfold probClamp
  by_cases h1 : p < 1 / 1000
  · rw [if_pos h1, min_eq_right (by linarith), max_eq_left h1.le]
  · rw [if_neg h1]
    by_cases h2 : 999 / 1000 < p
    · rw [if_pos h2, min_eq_left h2.le, max_eq_right (by norm_num)]
    · rw [if_neg h2, min_eq_right (not_lt.mp h2), max_eq_right (not_lt.mp h1)]

/-- The clamp `probClamp` is monotone. -/
theorem probClamp_mono : Monotone probClamp := fun _ _ h =>
  max_le_max le_rfl (min_le_min le_rfl h)

/-- Every element of a bootstrap resample is an element of the data. -/
theorem drawSample_mem (E : NumEnv) (data : List ℚ) (hd : data ≠ []) :
    ∀ (k g : ℕ), ∀ x ∈ (drawSample E data k g).1, x ∈ data := by
  intro k
  induction k with
  | zero => intro g x hx; simp [drawSample] at hx
  | succ k ih =>
    intro g x hx
    simp only [drawSample, List.mem_cons] at hx
    rcases hx with hx | hx
    · subst hx
      have hlen : 0 < data.length := List.length_pos.mpr hd
      have hidx : (E.rngNext g).1 % data.length < data.length := Nat.mod_lt _ hlen
      rw [List.getD_eq_getElem _ _ hidx]
      exact List.getElem_mem _
    · exact ih _ x hx

/-- A bootstrap resample of requested size `k` has length `k`. -/
theorem drawSample_length (E : NumEnv) (data : List ℚ) :
    ∀ (k g : ℕ), (drawSample E data k g).1.length = k := by
  intro k
  induction k with
  | zero => intro g; rfl
  | succ k ih => intro g; simp [drawSample, ih]

/-- The bootstrap loop produces exactly `B` estimates. -/
theorem bootstrapEstimates_length (E : NumEnv) (data : List ℚ) (f : Stat) :
    ∀ (B g : ℕ), (bootstrapEstimates E data f B g).1.length = B := by
  intro B
  induction B with
  | zero => intro g; rfl
  | succ B ih => intro g; simp [bootstrapEstimates, ih]

/-- Every bootstrap estimate is the statistic of a size-`n` resample
whose entries all come from the data. -/
theorem bootstrapEstimates_mem (E : NumEnv) (data : List ℚ) (f : Stat) (hd : data ≠ []) :
    ∀ (B g : ℕ), ∀ y ∈ (bootstrapEstimates E data f B g).1,
      ∃ s : List ℚ, s.length = data.length ∧ (∀ x ∈ s, x ∈ data) ∧ y = f s := by
  intro B
  induction B with
  | zero => intro g y hy; simp [bootstrapEstimates] at hy
  | succ B ih =>
    intro g y hy
    simp only [bootstrapEstimates, List.mem_cons] at hy
    rcases hy with hy | hy
    · exact ⟨_, drawSample_length E data _ _, drawSample_mem E data hd _ _, hy⟩
    · exact ih _ y hy

/-- Entries of a leave-one-out jackknife sample come from the data. -/
theorem jackknifeSample_mem (data : List ℚ) (i : ℕ) :
    ∀ x ∈ data.take i ++ data.drop (i + 1), x ∈ data := by
  intro x hx
  rcases List.mem_append.mp hx with h | h
  · exact List.mem_of_mem_take h
  · exact List.mem_of_mem_drop h

/-- A leave-one-out jackknife sample of a sample of length `n` has
length `n - 1`. -/
theorem jackknifeSample_length (data : List ℚ) (i : ℕ) (hi : i < data.length) :
    (data.take i ++ data.drop (i + 1)).length = data.length - 1 := by
  simp only [List.length_append, List.length_take, List.length_drop]
  omega

/-- Reading a nonempty all-constant list through `clampedGet` gives the
constant. -/
theorem clampedGet_of_all {s : List ℚ} {c : ℚ} (hall : ∀ x ∈ s, x = c) (hs : s ≠ [])
    (i : ℕ) : clampedGet s i = c := by
  have hlen : 0 < s.length := List.length_pos.mpr hs
  have hidx : min i (s.length - 1) < s.length := by omega
  unfold clampedGet
  rw [List.getD_eq_getElem _ _ hidx]
  exact hall _ (List.getElem_mem _)

/-- Interpolating a nonempty all-constant list gives the constant. -/
theorem interpAt_of_all {s : List ℚ} {c : ℚ} (hall : ∀ x ∈ s, x = c) (hs : s ≠ [])
    (h : ℚ) : interpAt s h = c := by
  unfold interpAt
  dsimp only
  rw [clampedGet_of_all hall hs, clampedGet_of_all hall hs]
  ring

/-- A valid percentile of a nonempty all-constant list is the constant. -/
theorem percentile_of_all {l : List ℚ} {c q : ℚ} (hall : ∀ x ∈ l, x = c) (hl : l ≠ [])
    (h0 : 0 ≤ q) (h100 : q ≤ 100) : percentile l q = some c := by
  have hperm := List.perm_insertionSort (· ≤ ·) l
  have hall' : ∀ x ∈ l.insertionSort (· ≤ ·), x = c := fun x hx =>
    hall x (hperm.mem_iff.mp hx)
  have hne : l.insertionSort (· ≤ ·) ≠ [] := by
    intro hcon
    exact hl (List.eq_nil_of_length_eq_zero (by rw [← hperm.length_eq, hcon]; rfl))
  unfold percentile
  rw [if_neg (by simp [hl, not_lt.mpr h0, not_lt.mpr h100])]
  rw [interpAt_of_all hall' hne]

/-- A percentile query with a valid percentile on a nonempty list
succeeds. -/
theorem percentile_isSome {l : List ℚ} {q : ℚ} (hl : l ≠ []) (h0 : 0 ≤ q)
    (h100 : q ≤ 100) : ∃ v, percentile l q = some v := by
  unfold percentile
  rw [if_neg (by simp [hl, not_lt.mpr h0, not_lt.mpr h100])]
  exact ⟨_, rfl⟩

/-- Mean of a constant list. -/
theorem npMean_replicate {n : ℕ} {c : ℚ} (hn : n ≠ 0) :
    npMean (List.replicate n c) = c := by
  unfold npMean
  rw [List.sum_replicate, List.length_replicate, nsmul_eq_mul]
  have : (n : ℚ) ≠ 0 := Nat.cast_ne_zero.mpr hn
  field_simp

/-- The jackknife on an all-constant sample (with a statistic that maps
nonempty constant samples to the constant): `z0` is the quantile of the
lower clamp `0.001` and the acceleration is `0`, because all replicates
coincide and the acceleration denominator vanishes. -/
theorem jackknife_const (E : NumEnv) {data : List ℚ} {c : ℚ} (f : Stat)
    (h5 : 5 ≤ data.length) (hall : ∀ x ∈ data, x = c)
    (hf : ∀ xs : List ℚ, xs ≠ [] → (∀ x ∈ xs, x = c) → f xs = c) :
    jackknife_bias_acceleration E data f = (E.ppf (1 / 1000), 0) := by
  have hd : data ≠ [] := by
    intro hcon
    rw [hcon] at h5
    simp at h5
  have hfull : f data = c := hf data hd hall
  have hreps : (List.range data.length).map (fun i => f (data.take i ++ data.drop (i + 1))) =
      List.replicate data.length c := by
    rw [List.eq_replicate_iff]
    refine ⟨by simp, ?_⟩
    intro b hb
    rcases List.mem_map.mp hb with ⟨i, hi, hfi⟩
    have hil : i < data.length := List.mem_range.mp hi
    have hlen : (data.take i ++ data.drop (i + 1)).length = data.length - 1 :=
      jackknifeSample_length data i hil
    have hne : data.take i ++ data.drop (i + 1) ≠ [] := by
      intro hcon
      rw [hcon] at hlen
      simp at hlen
      omega
    rw [← hfi]
    exact hf _ hne (fun x hx => hall x (jackknifeSample_mem data i x hx))
  unfold jackknife_bias_acceleration
  dsimp only
  rw [if_neg (by omega), hreps, hfull]
  have hn0 : data.length ≠ 0 := by omega
  rw [npMean_replicate hn0]
  have hfil : (List.replicate data.length c).filter (fun r => decide (r < c)) = [] := by
    rw [List.filter_eq_nil_iff]
    intro a ha
    rw [List.eq_of_mem_replicate ha]
    simp
  rw [hfil]
  have hmap3 : (List.replicate data.length c).map (fun r => (c - r) ^ 3) =
      List.replicate data.length 0 := by
    rw [List.map_replicate]
    norm_num
  have hmap2 : (List.replicate data.length c).map (fun r => (c - r) ^ 2) =
      List.replicate data.length 0 := by
    rw [List.map_replicate]
    norm_num
  rw [hmap3, hmap2]
  norm_num [List.sum_replicate, smul_zero, pow15, epsTen, probClamp_eq_ite]

/-- Characterization of a successful `bca_bootstrap` run in terms of
its components: given the jackknife output, the fallback test and the
two percentile queries, the call returns the corresponding record. -/
theorem bca_record_of (E : NumEnv) (data : List ℚ) (f : Stat) (B : ℕ) (alpha : ℚ)
    (g : ℕ) (h5 : ¬data.length < 5) {z0 a : ℚ}
    (hj : jackknife_bias_acceleration E data f = (z0, a)) {a1 a2 : ℚ}
    (ha : (if |1 - a * (z0 + E.ppf (alpha / 2))| < epsTen ∨
              |1 - a * (z0 + E.ppf (1 - alpha / 2))| < epsTen
           then (alpha / 2, 1 - alpha / 2)
           else (probClamp (E.cdf (z0 + (z0 + E.ppf (alpha / 2)) /
                    (1 - a * (z0 + E.ppf (alpha / 2))))),
                 probClamp (E.cdf (z0 + (z0 + E.ppf (1 - alpha / 2)) /
                    (1 - a * (z0 + E.ppf (1 - alpha / 2))))))) = (a1, a2))
    {lo hi : ℚ}
    (hlo : percentile (bootstrapEstimates E data f B (E.seedOf 42)).1 (a1 * 100) = some lo)
    (hhi : percentile (bootstrapEstimates E data f B (E.seedOf 42)).1 (a2 * 100) = some hi) :
    bca_bootstrap E data f B alpha g =
      (.record
        { lower_bound := lo
          upper_bound := hi
          bias_correction_z0 := z0
          acceleration_a := a
          bootstrap_mean := npMean (bootstrapEstimates E data f B (E.seedOf 42)).1
          bootstrap_std := npStd E (bootstrapEstimates E data f B (E.seedOf 42)).1
          alpha1 := a1
          alpha2 := a2
          original_estimate := f data
          bootstrap_samples := B }, (bootstrapEstimates E data f B (E.seedOf 42)).2) := by
  unfold bca_bootstrap
  dsimp only
  rw [if_neg h5, hj]
  dsimp only
  rw [ha]
  dsimp only
  rw [hlo, hhi]

/-- A clamped probability scaled to a percentile is nonnegative. -/
theorem probClamp_mul100_nonneg (p : ℚ) : 0 ≤ probClamp p * 100 := by
  have h := probClamp_mem p
  linarith [h.1]

/-- A clamped probability scaled to a percentile is at most 100. -/
theorem probClamp_mul100_le (p : ℚ) : probClamp p * 100 ≤ 100 := by
  have h := probClamp_mem p
  linarith [h.2]

/-- With at least one resample requested, the bootstrap distribution is
nonempty. -/
theorem bootstrapEstimates_ne_nil (E : NumEnv) (data : List ℚ) (f : Stat) {B : ℕ}
    (g : ℕ) (hB : 1 ≤ B) : (bootstrapEstimates E data f B g).1 ≠ [] := by
  intro hcon
  have hlen := bootstrapEstimates_length E data f B g
  rw [hcon] at hlen
  simp at hlen
  omega

/-- A mapped list sum as a `Finset.range` sum over positions. -/
theorem list_map_sum_eq (l : List ℚ) (h : ℚ → ℚ) :
    (l.map h).sum = ∑ i ∈ Finset.range l.length, h (l.getD i 0) := by
  induction l with
  | nil => simp
  | cons a l ih =>
    rw [List.map_cons, List.sum_cons, List.length_cons, Finset.sum_range_succ']
    simp only [List.getD_cons_succ, List.getD_cons_zero]
    rw [ih]
    ring

/-- The cube-sum inequality behind the boundedness of the BCa
acceleration: for any list of deviations, the squared sum of cubes is
at most the cubed sum of squares (`ℓ³`-norm bounded by `ℓ²`-norm,
squared to stay inside `ℚ`). -/
theorem cube_sum_sq_le (l : List ℚ) :
    ((l.map (fun d => d ^ 3)).sum) ^ 2 ≤ ((l.map (fun d => d ^ 2)).sum) ^ 3 := by
  rw [list_map_sum_eq, list_map_sum_eq]
  set n := l.length with hn
  set d : ℕ → ℚ := fun i => l.getD i 0 with hd
  have h2nonneg : (0 : ℚ) ≤ ∑ i ∈ Finset.range n, d i ^ 2 :=
    Finset.sum_nonneg fun i _ => sq_nonneg _
  have habs : |∑ i ∈ Finset.range n, d i ^ 3| ≤
      ∑ i ∈ Finset.range n, |d i| * d i ^ 2 := by
    refine (Finset.abs_sum_le_sum_abs _ _).trans (le_of_eq ?_)
    refine Finset.sum_congr rfl fun i _ => ?_
    rw [abs_pow]
    rw [show |d i| ^ 3 = |d i| * |d i| ^ 2 by ring, sq_abs]
  have hCS := Finset.sum_mul_sq_le_sq_mul_sq (Finset.range n)
    (fun i => |d i|) (fun i => d i ^ 2)
  have h4 : ∑ i ∈ Finset.range n, (d i ^ 2) ^ 2 ≤
      (∑ i ∈ Finset.range n, d i ^ 2) ^ 2 :=
    Finset.sum_sq_le_sq_sum_of_nonneg fun i _ => sq_nonneg _
  have hsqabs : ∑ i ∈ Finset.range n, |d i| ^ 2 = ∑ i ∈ Finset.range n, d i ^ 2 :=
    Finset.sum_congr rfl fun i _ => sq_abs _
  have hb : (0 : ℚ) ≤ ∑ i ∈ Finset.range n, |d i| * d i ^ 2 :=
    Finset.sum_nonneg fun i _ => mul_nonneg (abs_nonneg _) (sq_nonneg _)
  calc (∑ i ∈ Finset.range n, d i ^ 3) ^ 2
      ≤ (∑ i ∈ Finset.range n, |d i| * d i ^ 2) ^ 2 := by
        rcases abs_le.mp habs with ⟨hm, hp⟩
        exact sq_le_sq' hm hp
    _ ≤ (∑ i ∈ Finset.range n, |d i| ^ 2) * ∑ i ∈ Finset.range n, (d i ^ 2) ^ 2 := hCS
    _ = (∑ i ∈ Finset.range n, d i ^ 2) * ∑ i ∈ Finset.range n, (d i ^ 2) ^ 2 := by
        rw [hsqabs]
    _ ≤ (∑ i ∈ Finset.range n, d i ^ 2) * (∑ i ∈ Finset.range n, d i ^ 2) ^ 2 :=
        mul_le_mul_of_nonneg_left h4 h2nonneg
    _ = (∑ i ∈ Finset.range n, d i ^ 2) ^ 3 := by ring

/-- The square-root hypothesis every genuine square root satisfies:
nonnegative outputs whose square dominates the input. -/
def SqrtOk (E : NumEnv) : Prop := ∀ s : ℚ, 0 ≤ s → 0 ≤ E.sqrtQ s ∧ s ≤ E.sqrtQ s ^ 2

/-- The witness square root `s + 1` satisfies `SqrtOk`. -/
theorem sqrtOk_idEnv : SqrtOk idEnv := by
  intro s hs
  constructor
  · simpa [idEnv] using by linarith
  · simp only [idEnv]
    nlinarith

/-- The jackknife acceleration is at most `1/6` in absolute value, for
every sample and statistic, as long as the square root is a genuine
square root: the skewness numerator is dominated by the `1.5`-power of
the sum of squared deviations. -/
theorem jackknife_a_abs_le (E : NumEnv) (data : List ℚ) (f : Stat) (hsq : SqrtOk E) :
    |(jackknife_bias_acceleration E data f).2| ≤ 1 / 6 := by
  unfold jackknife_bias_acceleration
  dsimp only
  by_cases h5 : data.length < 5
  · rw [if_pos h5]
    norm_num
  rw [if_neg h5]
  dsimp only
  generalize (List.range data.length).map
    (fun i => f (data.take i ++ data.drop (i + 1))) = reps
  set td := npMean reps with htd
  set N := (reps.map (fun r => (td - r) ^ 3)).sum with hN
  set S := (reps.map (fun r => (td - r) ^ 2)).sum with hS
  by_cases hden : epsTen < |6 * pow15 E S|
  · rw [if_pos hden]
    have hS0 : 0 ≤ S := by
      rw [hS]
      refine List.sum_nonneg fun x hx => ?_
      rcases List.mem_map.mp hx with ⟨r, -, rfl⟩
      exact sq_nonneg _
    obtain ⟨hr0, hrle⟩ := hsq S hS0
    have hN2 : N ^ 2 ≤ S ^ 3 := by
      have hNeq : ((reps.map (fun r => td - r)).map (fun d => d ^ 3)).sum = N := by
        rw [List.map_map]
        rfl
      have hSeq : ((reps.map (fun r => td - r)).map (fun d => d ^ 2)).sum = S := by
        rw [List.map_map]
        rfl
      rw [← hNeq, ← hSeq]
      exact cube_sum_sq_le _
    have hp0 : 0 ≤ S * E.sqrtQ S := mul_nonneg hS0 hr0
    have hpow : 0 < pow15 E S := by
      unfold pow15 at hden ⊢
      rcases lt_or_eq_of_le hp0 with h | h
      · exact h
      · exfalso
        rw [← h] at hden
        norm_num [epsTen] at hden
    have hsq3 : S ^ 3 ≤ (S * E.sqrtQ S) ^ 2 := by
      nlinarith [mul_le_mul_of_nonneg_left hrle (sq_nonneg S)]
    have habsN : |N| ≤ S * E.sqrtQ S := by
      nlinarith [sq_abs N, abs_nonneg N, hp0, hN2, hsq3]
    have hden6 : (0 : ℚ) < 6 * pow15 E S := by linarith
    rw [abs_div, abs_of_pos hden6]
    rw [div_le_div_iff hden6 (by norm_num : (0 : ℚ) < 6)]
    unfold pow15
    nlinarith
  · rw [if_neg hden]
    norm_num

/-- The jackknife bias-correction `z0` is bounded by `3.1` whenever the
quantile function is bounded by `3.1` on the clamp range
`[0.001, 0.999]` (as the true normal quantile is:
`|Φ⁻¹| ≤ 3.0903` there). -/
theorem jackknife_z0_abs_le (E : NumEnv) (data : List ℚ) (f : Stat)
    (hppf : ∀ x : ℚ, 1 / 1000 ≤ x → x ≤ 999 / 1000 → |E.ppf x| ≤ 31 / 10) :
    |(jackknife_bias_acceleration E data f).1| ≤ 31 / 10 := by
  unfold jackknife_bias_acceleration
  dsimp only
  by_cases h5 : data.length < 5
  · rw [if_pos h5]
    norm_num
  · rw [if_neg h5]
    dsimp only
    exact hppf _ (probClamp_mem _).1 (probClamp_mem _).2

/-- Floor-index facts for a nonnegative fractional index. -/
theorem floor_toNat_facts {h : ℚ} (h0 : 0 ≤ h) :
    ((⌊h⌋.toNat : ℚ) ≤ h) ∧ h < (⌊h⌋.toNat : ℚ) + 1 := by
  have hf0 : 0 ≤ ⌊h⌋ := Int.floor_nonneg.mpr h0
  have hc : ((⌊h⌋.toNat : ℕ) : ℚ) = ((⌊h⌋ : ℤ) : ℚ) := by
    rw [← Int.cast_natCast, Int.toNat_of_nonneg hf0]
  constructor
  · rw [hc]
    exact Int.floor_le h
  · rw [hc]
    exact_mod_cast Int.lt_floor_add_one h

/-- Reading through `clampedGet` always reads an element of a nonempty list. -/
theorem clampedGet_mem {s : List ℚ} (hne : s ≠ []) (i : ℕ) : clampedGet s i ∈ s := by
  have hlen : 0 < s.length := List.length_pos.mpr hne
  have hidx : min i (s.length - 1) < s.length := by omega
  unfold clampedGet
  rw [List.getD_eq_getElem _ _ hidx]
  exact List.getElem_mem _

/-- Reading through `clampedGet` is monotone in the index on a sorted list. -/
theorem clampedGet_mono {s : List ℚ} (hs : s.Sorted (· ≤ ·)) (hne : s ≠ [])
    {i j : ℕ} (hij : i ≤ j) : clampedGet s i ≤ clampedGet s j := by
  have hlen : 0 < s.length := List.length_pos.mpr hne
  have hi : min i (s.length - 1) < s.length := by omega
  have hj : min j (s.length - 1) < s.length := by omega
  have hij' : min i (s.length - 1) ≤ min j (s.length - 1) := by omega
  unfold clampedGet
  rw [List.getD_eq_getElem _ _ hi, List.getD_eq_getElem _ _ hj]
  have := hs.rel_get_of_le (a := ⟨min i (s.length - 1), hi⟩)
    (b := ⟨min j (s.length - 1), hj⟩) (Fin.mk_le_mk.mpr hij')
  simpa [List.get_eq_getElem] using this

/-- Linear interpolation over a sorted list is monotone in the index. -/
theorem interpAt_mono {s : List ℚ} (hs : s.Sorted (· ≤ ·)) (hne : s ≠ [])
    {h1 h2 : ℚ} (h0 : 0 ≤ h1) (h12 : h1 ≤ h2) : interpAt s h1 ≤ interpAt s h2 := by
  unfold interpAt
  dsimp only
  have hk12 : ⌊h1⌋.toNat ≤ ⌊h2⌋.toNat := Int.toNat_le_toNat (Int.floor_le_floor h12)
  obtain ⟨hk1le, hk1lt⟩ := floor_toNat_facts h0
  obtain ⟨hk2le, hk2lt⟩ := floor_toNat_facts (le_trans h0 h12)
  have hv1 : clampedGet s ⌊h1⌋.toNat ≤ clampedGet s (⌊h1⌋.toNat + 1) :=
    clampedGet_mono hs hne (Nat.le_succ _)
  have hv2 : clampedGet s ⌊h2⌋.toNat ≤ clampedGet s (⌊h2⌋.toNat + 1) :=
    clampedGet_mono hs hne (Nat.le_succ _)
  rcases eq_or_lt_of_le hk12 with heq | hlt
  · rw [heq]
    rw [heq] at hk1le
    nlinarith [mul_nonneg (sub_nonneg.mpr h12) (sub_nonneg.mpr hv2)]
  · have hmid : clampedGet s (⌊h1⌋.toNat + 1) ≤ clampedGet s ⌊h2⌋.toNat :=
      clampedGet_mono hs hne hlt
    have hup : clampedGet s ⌊h1⌋.toNat +
        (h1 - (⌊h1⌋.toNat : ℚ)) * (clampedGet s (⌊h1⌋.toNat + 1) - clampedGet s ⌊h1⌋.toNat) ≤
        clampedGet s (⌊h1⌋.toNat + 1) := by
      nlinarith [mul_nonneg (sub_nonneg.mpr hv1)
        (by linarith : (0 : ℚ) ≤ 1 - (h1 - (⌊h1⌋.toNat : ℚ)))]
    have hdown : clampedGet s ⌊h2⌋.toNat ≤ clampedGet s ⌊h2⌋.toNat +
        (h2 - (⌊h2⌋.toNat : ℚ)) * (clampedGet s (⌊h2⌋.toNat + 1) - clampedGet s ⌊h2⌋.toNat) := by
      nlinarith [mul_nonneg (sub_nonneg.mpr hk2le) (sub_nonneg.mpr hv2)]
    linarith

/-- Linear interpolation over a sorted list stays inside any interval
containing all list elements. -/
theorem interpAt_between {s : List ℚ} (hs : s.Sorted (· ≤ ·)) (hne : s ≠ [])
    {lo hi : ℚ} (hmem : ∀ x ∈ s, lo ≤ x ∧ x ≤ hi) {h : ℚ} (h0 : 0 ≤ h) :
    lo ≤ interpAt s h ∧ interpAt s h ≤ hi := by
  unfold interpAt
  dsimp only
  obtain ⟨hkle, hklt⟩ := floor_toNat_facts h0
  have hv : clampedGet s ⌊h⌋.toNat ≤ clampedGet s (⌊h⌋.toNat + 1) :=
    clampedGet_mono hs hne (Nat.le_succ _)
  obtain ⟨hlo0, hhi0⟩ := hmem _ (clampedGet_mem hne ⌊h⌋.toNat)
  obtain ⟨hlo1, hhi1⟩ := hmem _ (clampedGet_mem hne (⌊h⌋.toNat + 1))
  constructor
  · nlinarith [mul_nonneg (sub_nonneg.mpr hkle) (sub_nonneg.mpr hv)]
  · nlinarith [mul_nonneg (sub_nonneg.mpr hv)
      (by linarith : (0 : ℚ) ≤ 1 - (h - (⌊h⌋.toNat : ℚ)))]

/-- The embedded `np.percentile` is monotone in the percentile. -/
theorem percentile_mono {l : List ℚ} (hl : l ≠ []) {q1 q2 v1 v2 : ℚ} (h0 : 0 ≤ q1)
    (h12 : q1 ≤ q2) (h100 : q2 ≤ 100) (hv1 : percentile l q1 = some v1)
    (hv2 : percentile l q2 = some v2) : v1 ≤ v2 := by
  have hs := List.sorted_insertionSort (· ≤ ·) l
  have hperm := List.perm_insertionSort (· ≤ ·) l
  have hne : l.insertionSort (· ≤ ·) ≠ [] := by
    intro hcon
    exact hl (List.eq_nil_of_length_eq_zero (by rw [← hperm.length_eq, hcon]; rfl))
  unfold percentile at hv1 hv2
  rw [if_neg (by simp [hl, not_lt.mpr h0, not_lt.mpr (le_trans h12 h100)])] at hv1
  rw [if_neg (by simp [hl, not_lt.mpr (le_trans h0 h12), not_lt.mpr h100])] at hv2
  rw [Option.some_inj] at hv1 hv2
  rw [← hv1, ← hv2]
  have hcast : (0 : ℚ) ≤ ((l.length - 1 : ℕ) : ℚ) := Nat.cast_nonneg _
  refine interpAt_mono hs hne ?_ ?_
  · positivity
  · have := mul_le_mul_of_nonneg_right h12 hcast
    linarith

/-- The embedded `np.percentile` stays inside any interval containing all data. -/
theorem percentile_bounds {l : List ℚ} (hl : l ≠ []) {lo hi q : ℚ}
    (hmem : ∀ x ∈ l, lo ≤ x ∧ x ≤ hi) (h0 : 0 ≤ q) (h100 : q ≤ 100) {v : ℚ}
    (hv : percentile l q = some v) : lo ≤ v ∧ v ≤ hi := by
  have hs := List.sorted_insertionSort (· ≤ ·) l
  have hperm := List.perm_insertionSort (· ≤ ·) l
  have hne : l.insertionSort (· ≤ ·) ≠ [] := by
    intro hcon
    exact hl (List.eq_nil_of_length_eq_zero (by rw [← hperm.length_eq, hcon]; rfl))
  have hmem' : ∀ x ∈ l.insertionSort (· ≤ ·), lo ≤ x ∧ x ≤ hi := fun x hx =>
    hmem x (hperm.mem_iff.mp hx)
  unfold percentile at hv
  rw [if_neg (by simp [hl, not_lt.mpr h0, not_lt.mpr h100])] at hv
  rw [Option.some_inj] at hv
  rw [← hv]
  refine interpAt_between hs hne hmem' ?_
  positivity

/-- The mean of a nonempty list of values in `[0, 1]` lies in `[0, 1]`. -/
theorem meanStat_mem_unit {s : List ℚ} (hne : s ≠ [])
    (hmem : ∀ x ∈ s, 0 ≤ x ∧ x ≤ 1) : 0 ≤ meanStat s ∧ meanStat s ≤ 1 := by
  have hlen : 0 < s.length := List.length_pos.mpr hne
  have hlenQ : (0 : ℚ) < (s.length : ℚ) := by exact_mod_cast hlen
  have hsum0 : 0 ≤ s.sum := List.sum_nonneg fun x hx => (hmem x hx).1
  have hsumle : s.sum ≤ (s.length : ℚ) := by
    have := List.sum_le_card_nsmul s 1 fun x hx => (hmem x hx).2
    simpa [nsmul_eq_mul] using this
  unfold meanStat npMean
  constructor
  · positivity
  · rw [div_le_one hlenQ]
    exact hsumle

/-- The bound hypothesis on the quantile table over the clamp range —
satisfied by the true normal quantile, whose magnitude on
`[0.001, 0.999]` is at most `3.0903`. -/
def PpfBounded (E : NumEnv) : Prop :=
  ∀ x : ℚ, 1 / 1000 ≤ x → x ≤ 999 / 1000 → |E.ppf x| ≤ 31 / 10

/-- The BCa-adjusted cumulative probability computed by the script on
the non-fallback branch, as a function of the normal quantile `z`
(`z_alpha_2` or `z_1_alpha_2`). -/
def adjProb (E : NumEnv) (data : List ℚ) (f : Stat) (z : ℚ) : ℚ :=
  probClamp (E.cdf ((jackknife_bias_acceleration E data f).1 +
    ((jackknife_bias_acceleration E data f).1 + z) /
      (1 - (jackknife_bias_acceleration E data f).2 *
        ((jackknife_bias_acceleration E data f).1 + z))))

/-- The adjusted probability is clamped into `[0.001, 0.999]`. -/
theorem adjProb_mem (E : NumEnv) (data : List ℚ) (f : Stat) (z : ℚ) :
    1 / 1000 ≤ adjProb E data f z ∧ adjProb E data f z ≤ 999 / 1000 :=
  probClamp_mem _

/-- Both BCa denominators stay above `1/60` whenever the acceleration
obeys its universal `1/6` bound and the supplied quantile magnitudes
are at most `2.8` (true for the normal quantiles of any
`alpha ≥ 0.01`). -/
theorem denom_ge (E : NumEnv) (data : List ℚ) (f : Stat) (hsq : SqrtOk E)
    (hppf : PpfBounded E) {z : ℚ} (hz : |z| ≤ 28 / 10) :
    1 / 60 ≤ 1 - (jackknife_bias_acceleration E data f).2 *
      ((jackknife_bias_acceleration E data f).1 + z) := by
  have ha := jackknife_a_abs_le E data f hsq
  have hz0 := jackknife_z0_abs_le E data f hppf
  have habs : |(jackknife_bias_acceleration E data f).1 + z| ≤ 59 / 10 :=
    (abs_add _ _).trans (by linarith)
  have h1 : |(jackknife_bias_acceleration E data f).2 *
      ((jackknife_bias_acceleration E data f).1 + z)| ≤ 59 / 60 := by
    rw [abs_mul]
    calc |(jackknife_bias_acceleration E data f).2| *
        |(jackknife_bias_acceleration E data f).1 + z| ≤ 1 / 6 * (59 / 10) :=
          mul_le_mul ha habs (abs_nonneg _) (by norm_num)
      _ = 59 / 60 := by norm_num
  have := (abs_le.mp h1).2
  linarith

/-- Under the same bounds the `1e-10` degeneracy test cannot fire. -/
theorem no_fallback (E : NumEnv) (data : List ℚ) (f : Stat) (alpha : ℚ)
    (hsq : SqrtOk E) (hppf : PpfBounded E)
    (hzlo : |E.ppf (alpha / 2)| ≤ 28 / 10) (hzhi : |E.ppf (1 - alpha / 2)| ≤ 28 / 10) :
    ¬(|1 - (jackknife_bias_acceleration E data f).2 *
          ((jackknife_bias_acceleration E data f).1 + E.ppf (alpha / 2))| < epsTen ∨
      |1 - (jackknife_bias_acceleration E data f).2 *
          ((jackknife_bias_acceleration E data f).1 + E.ppf (1 - alpha / 2))| < epsTen) := by
  have h1 := denom_ge E data f hsq hppf hzlo
  have h2 := denom_ge E data f hsq hppf hzhi
  push_neg
  refine ⟨le_trans (le_trans (by norm_num [epsTen]) h1) (le_abs_self _),
    le_trans (le_trans (by norm_num [epsTen]) h2) (le_abs_self _)⟩

/-- The adjusted probability is monotone in the supplied quantile, as
long as both denominators stay positive and the distribution table is
monotone. -/
theorem adjProb_mono (E : NumEnv) (data : List ℚ) (f : Stat) (hsq : SqrtOk E)
    (hppf : PpfBounded E) (hcdf : Monotone E.cdf) {za zb : ℚ} (hz : za ≤ zb)
    (hza : |za| ≤ 28 / 10) (hzb : |zb| ≤ 28 / 10) :
    adjProb E data f za ≤ adjProb E data f zb := by
  have hda := denom_ge E data f hsq hppf hza
  have hdb := denom_ge E data f hsq hppf hzb
  have hda0 : (0 : ℚ) < 1 - (jackknife_bias_acceleration E data f).2 *
      ((jackknife_bias_acceleration E data f).1 + za) := by linarith
  have hdb0 : (0 : ℚ) < 1 - (jackknife_bias_acceleration E data f).2 *
      ((jackknife_bias_acceleration E data f).1 + zb) := by linarith
  have hfrac : ((jackknife_bias_acceleration E data f).1 + za) /
      (1 - (jackknife_bias_acceleration E data f).2 *
        ((jackknife_bias_acceleration E data f).1 + za)) ≤
      ((jackknife_bias_acceleration E data f).1 + zb) /
      (1 - (jackknife_bias_acceleration E data f).2 *
        ((jackknife_bias_acceleration E data f).1 + zb)) := by
    rw [div_le_div_iff hda0 hdb0]
    have hkey : ((jackknife_bias_acceleration E data f).1 + za) *
        (1 - (jackknife_bias_acceleration E data f).2 *
          ((jackknife_bias_acceleration E data f).1 + zb)) -
        ((jackknife_bias_acceleration E data f).1 + zb) *
        (1 - (jackknife_bias_acceleration E data f).2 *
          ((jackknife_bias_acceleration E data f).1 + za)) = za - zb := by
      ring
    linarith
  exact probClamp_mono (hcdf (by linarith))

/-- Every size-checked call with `B ≥ 1` whose quantile magnitudes obey
the standard bounds takes the BCa branch with positive denominators and
returns a record whose probabilities are the adjusted ones, whose
bounds are the corresponding percentiles of the bootstrap distribution,
and whose interval is correctly ordered. -/
theorem bca_ordered_record (E : NumEnv) (data : List ℚ) (f : Stat) (B : ℕ)
    (alpha : ℚ) (g : ℕ) (h5 : 5 ≤ data.length) (hB : 1 ≤ B) (hsq : SqrtOk E)
    (hppf : PpfBounded E) (hcdf : Monotone E.cdf)
    (hzlo : |E.ppf (alpha / 2)| ≤ 28 / 10) (hzhi : |E.ppf (1 - alpha / 2)| ≤ 28 / 10)
    (hlohi : E.ppf (alpha / 2) ≤ E.ppf (1 - alpha / 2)) :
    ∃ r : BcaRecord,
      bca_bootstrap E data f B alpha g =
          (.record r, (bootstrapEstimates E data f B (E.seedOf 42)).2) ∧
        r.alpha1 = adjProb E data f (E.ppf (alpha / 2)) ∧
        r.alpha2 = adjProb E data f (E.ppf (1 - alpha / 2)) ∧
        percentile (bootstrapEstimates E data f B (E.seedOf 42)).1 (r.alpha1 * 100) =
          some r.lower_bound ∧
        percentile (bootstrapEstimates E data f B (E.seedOf 42)).1 (r.alpha2 * 100) =
          some r.upper_bound ∧
        r.lower_bound ≤ r.upper_bound := by
  have hbne : (bootstrapEstimates E data f B (E.seedOf 42)).1 ≠ [] :=
    bootstrapEstimates_ne_nil E data f _ hB
  have hcond := no_fallback E data f alpha hsq hppf hzlo hzhi
  obtain ⟨lo, hlo⟩ := percentile_isSome (l := (bootstrapEstimates E data f B (E.seedOf 42)).1)
    (q := adjProb E data f (E.ppf (alpha / 2)) * 100) hbne
    (by have := adjProb_mem E data f (E.ppf (alpha / 2)); linarith [this.1])
    (by have := adjProb_mem E data f (E.ppf (alpha / 2)); linarith [this.2])
  obtain ⟨hi, hhi⟩ := percentile_isSome (l := (bootstrapEstimates E data f B (E.seedOf 42)).1)
    (q := adjProb E data f (E.ppf (1 - alpha / 2)) * 100) hbne
    (by have := adjProb_mem E data f (E.ppf (1 - alpha / 2)); linarith [this.1])
    (by have := adjProb_mem E data f (E.ppf (1 - alpha / 2)); linarith [this.2])
  have hj : jackknife_bias_acceleration E data f =
      ((jackknife_bias_acceleration E data f).1,
       (jackknife_bias_acceleration E data f).2) := Prod.mk.eta.symm
  have hmain := bca_record_of E data f B alpha g (by omega) hj (if_neg hcond) hlo hhi
  have hmono := adjProb_mono E data f hsq hppf hcdf hlohi hzlo hzhi
  have hord : lo ≤ hi := by
    refine percentile_mono hbne ?_ ?_ ?_ hlo hhi
    · have := adjProb_mem E data f (E.ppf (alpha / 2))
      linarith [this.1]
    · linarith
    · have := adjProb_mem E data f (E.ppf (1 - alpha / 2))
      linarith [this.2]
  exact ⟨_, hmain, rfl, rfl, hlo, hhi, hord⟩

/-- The mean statistic maps every nonempty constant sample to the
constant. -/
theorem meanStat_of_all {c : ℚ} : ∀ xs : List ℚ, xs ≠ [] → (∀ x ∈ xs, x = c) →
    meanStat xs = c := by
  intro xs hne hall
  have hx : xs = List.replicate xs.length c := List.eq_replicate_iff.mpr ⟨rfl, hall⟩
  have hn : xs.length ≠ 0 := fun hcon => hne (List.eq_nil_of_length_eq_zero hcon)
  unfold meanStat
  rw [hx]
  exact npMean_replicate hn

end Helpers

/-- C5: Constant-sample degeneracy.  For every sample of length at
least 5 all of whose observations equal the constant `c`, every
resample count `B ≥ 1`, every `alpha`, every environment and any prior
RNG state, `bca_bootstrap` (with a statistic that, like the mean, maps
nonempty constant samples to their constant) returns a record with
acceleration `a = 0` and the zero-width interval
`lower = upper = c`. -/
theorem c5_constant_sample (E : NumEnv) (data : List ℚ) (f : Stat) (c : ℚ) (B : ℕ)
    (alpha : ℚ) (g : ℕ) (h5 : 5 ≤ data.length) (hall : ∀ x ∈ data, x = c)
    (hf : ∀ xs : List ℚ, xs ≠ [] → (∀ x ∈ xs, x = c) → f xs = c) (hB : 1 ≤ B) :
    ∃ r : BcaRecord, (bca_bootstrap E data f B alpha g).1 = .record r ∧
      r.acceleration_a = 0 ∧ r.lower_bound = c ∧ r.upper_bound = c := by
  have hd : data ≠ [] := by
    intro hcon
    rw [hcon] at h5
    simp at h5
  have hj := jackknife_const E f h5 hall hf
  have hballc : ∀ y ∈ (bootstrapEstimates E data f B (E.seedOf 42)).1, y = c := by
    intro y hy
    rcases bootstrapEstimates_mem E data f hd B _ y hy with ⟨s, hslen, hsmem, rfl⟩
    have hsne : s ≠ [] := by
      intro hcon
      rw [hcon] at hslen
      simp at hslen
      omega
    exact hf s hsne (fun x hx => hall x (hsmem x hx))
  have hbne : (bootstrapEstimates E data f B (E.seedOf 42)).1 ≠ [] :=
    bootstrapEstimates_ne_nil E data f _ hB
  have hmain := bca_record_of E data f B alpha g (by omega) hj
    (if_neg (by norm_num [epsTen]))
    (percentile_of_all hballc hbne (probClamp_mul100_nonneg _) (probClamp_mul100_le _))
    (percentile_of_all hballc hbne (probClamp_mul100_nonneg _) (probClamp_mul100_le _))
  exact ⟨_, by rw [hmain], rfl, rfl, rfl⟩

/-- Witness for `c5_constant_sample` on the constant sample
`[1, 1, 1, 1, 1]` with the mean statistic. -/
theorem c5_constant_sample_witness :
    (5 ≤ ([(1 : ℚ), 1, 1, 1, 1]).length) ∧
      ∃ r : BcaRecord,
        (bca_bootstrap idEnv [(1 : ℚ), 1, 1, 1, 1] meanStat 2 (1 / 20) 0).1 = .record r ∧
          r.acceleration_a = 0 ∧ r.lower_bound = 1 ∧ r.upper_bound = 1 :=
  ⟨by decide,
    c5_constant_sample idEnv [(1 : ℚ), 1, 1, 1, 1] meanStat 1 2 (1 / 20) 0 (by decide)
      (by decide) (fun xs hne hall => meanStat_of_all xs hne hall) (by decide)⟩

/-- Every size-checked call with at least one resample and
`0 < alpha < 2` returns a record whose `z0`/`a` fields are the exact
jackknife outputs, whose fallback status is recomputable from those
fields, and whose probabilities are the plain percentile pair whenever
the fallback fires. -/
theorem bca_record_exists (E : NumEnv) (data : List ℚ) (f : Stat) (B : ℕ) (alpha : ℚ)
    (g : ℕ) (h5 : 5 ≤ data.length) (hB : 1 ≤ B) (h0 : 0 < alpha) (h2 : alpha < 2) :
    ∃ r : BcaRecord,
      bca_bootstrap E data f B alpha g =
          (.record r, (bootstrapEstimates E data f B (E.seedOf 42)).2) ∧
        detectFallback E r alpha = bcaFallbackTaken E data f alpha ∧
        (bcaFallbackTaken E data f alpha = true →
          r.alpha1 = alpha / 2 ∧ r.alpha2 = 1 - alpha / 2) := by
  have hbne : (bootstrapEstimates E data f B (E.seedOf 42)).1 ≠ [] :=
    bootstrapEstimates_ne_nil E data f _ hB
  have hj : jackknife_bias_acceleration E data f =
      ((jackknife_bias_acceleration E data f).1,
       (jackknife_bias_acceleration E data f).2) := Prod.mk.eta.symm
  by_cases hC : |1 - (jackknife_bias_acceleration E data f).2 *
        ((jackknife_bias_acceleration E data f).1 + E.ppf (alpha / 2))| < epsTen ∨
      |1 - (jackknife_bias_acceleration E data f).2 *
        ((jackknife_bias_acceleration E data f).1 + E.ppf (1 - alpha / 2))| < epsTen
  · obtain ⟨lo, hlo⟩ := percentile_isSome hbne (q := alpha / 2 * 100)
      (by linarith) (by linarith)
    obtain ⟨hi, hhi⟩ := percentile_isSome hbne (q := (1 - alpha / 2) * 100)
      (by linarith) (by linarith)
    have hmain := bca_record_of E data f B alpha g (by omega) hj (if_pos hC) hlo hhi
    refine ⟨_, hmain, ?_, fun _ => ⟨rfl, rfl⟩⟩
    unfold detectFallback bcaFallbackTaken
    rfl
  · obtain ⟨lo, hlo⟩ := percentile_isSome hbne
      (probClamp_mul100_nonneg _) (probClamp_mul100_le _)
    obtain ⟨hi, hhi⟩ := percentile_isSome hbne
      (probClamp_mul100_nonneg _) (probClamp_mul100_le _)
    have hmain := bca_record_of E data f B alpha g (by omega) hj (if_neg hC) hlo hhi
    refine ⟨_, hmain, ?_, fun htaken => ?_⟩
    · unfold detectFallback bcaFallbackTaken
      rfl
    · have hcond := of_decide_eq_true (p := |1 - (jackknife_bias_acceleration E data f).2 *
        ((jackknife_bias_acceleration E data f).1 + E.ppf (alpha / 2))| < epsTen ∨
        |1 - (jackknife_bias_acceleration E data f).2 *
        ((jackknife_bias_acceleration E data f).1 + E.ppf (1 - alpha / 2))| < epsTen) htaken
      exact absurd hcond hC

/-- C4: Percentile fallback on degenerate correction.  Whenever either
BCa denominator is smaller than `1e-10` in absolute value, the call
still completes and returns a record (no abort) whose `alpha1`/`alpha2`
are the plain percentile probabilities `alpha/2` and `1 - alpha/2`, and
the fact that the fallback was taken is recoverable by the caller from
the returned output: the record carries the exact `z0` and `a`, so
`detectFallback`, computed from the returned record and the callers
own `alpha` and quantile function, always coincides with the branch the
call actually took.  (The record itself contains no dedicated flag
field; the console warning the script prints is not part of the
returned value.) -/
theorem c4_fallback_percentile (E : NumEnv) (data : List ℚ) (f : Stat) (B : ℕ)
    (alpha : ℚ) (g : ℕ) (h5 : 5 ≤ data.length) (hB : 1 ≤ B) (h0 : 0 < alpha)
    (h2 : alpha < 2) :
    ∃ r : BcaRecord, (bca_bootstrap E data f B alpha g).1 = .record r ∧
      detectFallback E r alpha = bcaFallbackTaken E data f alpha ∧
      (bcaFallbackTaken E data f alpha = true →
        r.alpha1 = alpha / 2 ∧ r.alpha2 = 1 - alpha / 2) := by
  obtain ⟨r, hr, hdet, hfb⟩ := bca_record_exists E data f B alpha g h5 hB h0 h2
  exact ⟨r, by rw [hr], hdet, hfb⟩

/-- Witness for `c4_fallback_percentile` on a concrete call. -/
theorem c4_fallback_percentile_witness :
    (5 ≤ ([(0 : ℚ), 1, 2, 3, 4]).length) ∧
      ∃ r : BcaRecord,
        (bca_bootstrap idEnv [(0 : ℚ), 1, 2, 3, 4] meanStat 1 (1 / 20) 0).1 = .record r ∧
          detectFallback idEnv r (1 / 20) =
            bcaFallbackTaken idEnv [(0 : ℚ), 1, 2, 3, 4] meanStat (1 / 20) ∧
          (bcaFallbackTaken idEnv [(0 : ℚ), 1, 2, 3, 4] meanStat (1 / 20) = true →
            r.alpha1 = 1 / 20 / 2 ∧ r.alpha2 = 1 - 1 / 20 / 2) :=
  ⟨by decide,
    c4_fallback_percentile idEnv [(0 : ℚ), 1, 2, 3, 4] meanStat 1 (1 / 20) 0 (by decide)
      (by decide) (by norm_num) (by norm_num)⟩

/-- C7 (amended): No configuration validation.  The script checks the
sample size up front, but performs no validation of `alpha` or
`n_bootstrap`: for a size-checked sample and at least one resample,
every `alpha` in `(0, 2)` — including every invalid `alpha` in `[1, 2)`
— flows through the whole computation and produces an ordinary result
record rather than a fast failure; and `n_bootstrap = 0` (equivalently
any nonpositive count, since Python `range` is then empty) produces an
empty bootstrap distribution whose percentile query fails downstream,
after seeding, not a pre-resampling configuration error. -/
theorem c7_no_config_validation (E : NumEnv) (data : List ℚ) (f : Stat) (B : ℕ)
    (alpha : ℚ) (g : ℕ) (h5 : 5 ≤ data.length) :
    (0 < alpha → alpha < 2 → 1 ≤ B →
      (bca_bootstrap E data f B alpha g).1.isRecord = true) ∧
    (B = 0 → (bca_bootstrap E data f B alpha g).1 = .percentileError) := by
  constructor
  · intro h0 h2 hB
    obtain ⟨r, hr, -, -⟩ := bca_record_exists E data f B alpha g h5 hB h0 h2
    rw [hr]
    rfl
  · intro hb
    subst hb
    simp [bca_bootstrap, Nat.not_lt.mpr h5, bootstrapEstimates, percentile]

/-- Witness for `c7_no_config_validation` on a concrete call. -/
theorem c7_no_config_validation_witness :
    (5 ≤ ([(0 : ℚ), 1, 2, 3, 4]).length) ∧
      ((0 < (3 : ℚ) / 2 → (3 : ℚ) / 2 < 2 → 1 ≤ 3 →
        (bca_bootstrap idEnv [(0 : ℚ), 1, 2, 3, 4] meanStat 3 (3 / 2) 5).1.isRecord = true) ∧
       ((3 : ℕ) = 0 →
        (bca_bootstrap idEnv [(0 : ℚ), 1, 2, 3, 4] meanStat 3 (3 / 2) 5).1 = .percentileError)) :=
  ⟨by decide, c7_no_config_validation idEnv [(0 : ℚ), 1, 2, 3, 4] meanStat 3 (3 / 2) 5 (by decide)⟩

set_option maxRecDepth 4000

/-- C7 counterexample: with `alpha = 3/2`, which lies outside `(0, 1)`,
a call on a valid sample does not fail fast with a configuration error:
it runs the full bootstrap (the global RNG state is advanced away from
the prior state `5`) and returns an ordinary computed record. -/
theorem c7_counterexample :
    (bca_bootstrap idEnv [(0 : ℚ), 1, 2, 3, 4] meanStat 3 (3 / 2) 5).1.isRecord = true ∧
      (bca_bootstrap idEnv [(0 : ℚ), 1, 2, 3, 4] meanStat 3 (3 / 2) 5).2 ≠ 5 := by
  with_unfolding_all decide

/-- C1: Determinism.  For every choice of the numerical primitives,
sample, statistic, `n_bootstrap` and `alpha`, two invocations of
`bca_bootstrap` on the same inputs return identical results — whatever
global RNG states `g` and `g'` the process was in before each call —
because the function reseeds the generator with the fixed seed 42
before the resampling loop (and on the short-circuit path performs no
random draws at all). -/
theorem c1_determinism (E : NumEnv) (data : List ℚ) (f : Stat) (B : ℕ) (alpha : ℚ)
    (g g' : ℕ) :
    (bca_bootstrap E data f B alpha g).1 = (bca_bootstrap E data f B alpha g').1 := by
  by_cases h : data.length < 5 <;> simp [bca_bootstrap, h]

/-- C2: Insufficient sample.  For every sample of length below 5 the
call returns the structured sample-too-small failure (the Python error dict carrying the sample-too-small message and the
length, modelled as `insufficientSample n`)
instead of a computed interval, and the global RNG state is returned
unchanged: the check precedes the seeding and the whole resampling
loop, so no bootstrap work happens. -/
theorem c2_insufficient_sample (E : NumEnv) (data : List ℚ) (f : Stat) (B : ℕ)
    (alpha : ℚ) (g : ℕ) (h : data.length < 5) :
    bca_bootstrap E data f B alpha g = (.insufficientSample data.length, g) := by
  simp [bca_bootstrap, h]

/-- Witness for `c2_insufficient_sample` at the example of the spec, a
sample of length 2 with the mean statistic. -/
theorem c2_insufficient_sample_witness :
    ([(1 : ℚ), 0].length < 5) ∧
      bca_bootstrap idEnv [(1 : ℚ), 0] meanStat 10000 (1 / 20) 7 =
        (.insufficientSample 2, 7) :=
  ⟨by decide, c2_insufficient_sample idEnv [(1 : ℚ), 0] meanStat 10000 (1 / 20) 7 (by decide)⟩

/-- C10: Independence of the prior global RNG state.  For a sample
that passes the size check, the entire call result — the returned
record and the global RNG state left behind — is the same for any two
prior states `g` and `g'`, because `np.random.seed(42)` overwrites the
state unconditionally; the post-call state is therefore a function of
the inputs alone, which is exactly why a later consumer of the global
generator is affected by whether `bca_bootstrap` ran. -/
theorem c10_rng_state_oblivious (E : NumEnv) (data : List ℚ) (f : Stat) (B : ℕ)
    (alpha : ℚ) (g g' : ℕ) (h : 5 ≤ data.length) :
    bca_bootstrap E data f B alpha g = bca_bootstrap E data f B alpha g' := by
  simp [bca_bootstrap, Nat.not_lt.mpr h]

/-- Witness for `c10_rng_state_oblivious` on a concrete five-element
sample and two different prior states. -/
theorem c10_rng_state_oblivious_witness :
    (5 ≤ ([(0 : ℚ), 1, 0, 1, 1]).length) ∧
      bca_bootstrap idEnv [(0 : ℚ), 1, 0, 1, 1] meanStat 3 (1 / 20) 0 =
        bca_bootstrap idEnv [(0 : ℚ), 1, 0, 1, 1] meanStat 3 (1 / 20) 999 :=
  ⟨by decide,
    c10_rng_state_oblivious idEnv [(0 : ℚ), 1, 0, 1, 1] meanStat 3 (1 / 20) 0 999 (by decide)⟩

/-- C3: The source jackknife agrees with the reference definition of
spec §4.1 on every sample of length at least 5 (for every statistic and
every choice of normal quantile function and square root): `z0` is the
normal quantile of the clamped below-estimate proportion and `a` the
guarded skewness ratio.  Both live in `ℚ`, so the finiteness required
by the spec is inherent: the only division is guarded by the
`|denominator| > 1e-10` test and the quantile argument is clamped into
`[0.001, 0.999]`. -/
theorem c3_jackknife_matches_spec (E : NumEnv) (data : List ℚ) (f : Stat)
    (h : 5 ≤ data.length) :
    jackknife_bias_acceleration E data f = jackknife_spec E data f := by
  have herase : ((List.range data.length).map (fun i => f (data.eraseIdx i))) =
      (List.range data.length).map (fun i => f (data.take i ++ data.drop (i + 1))) := by
    refine List.map_congr_left ?_
    intro i _
    rw [List.eraseIdx_eq_take_drop_succ]
  unfold jackknife_bias_acceleration jackknife_spec
  dsimp only
  rw [if_neg (by omega), herase, probClamp_eq_ite]
  simp only [npMean, pow15, List.length_map, List.length_range]

/-- Witness for `c3_jackknife_matches_spec` on a concrete sample with
the mean statistic. -/
theorem c3_jackknife_matches_spec_witness :
    (5 ≤ ([(1 : ℚ), 2, 3, 4, 5]).length) ∧
      jackknife_bias_acceleration idEnv [(1 : ℚ), 2, 3, 4, 5] meanStat =
        jackknife_spec idEnv [(1 : ℚ), 2, 3, 4, 5] meanStat :=
  ⟨by decide, c3_jackknife_matches_spec idEnv [(1 : ℚ), 2, 3, 4, 5] meanStat (by decide)⟩


/-- C6 counterexample: at the valid input `alpha = 4.8e-9` (inside
`(0,1)`), sample `[1,2,3,4,5]` and the statistic above, the call
returns a crossed interval: `upper_bound < lower_bound`.  The BCa
denominator `1 - a*(z0 + z_hi)` is negative (not merely within `1e-10`
of zero, so the fallback does not fire), which sends `alpha2` to the
lower clamp while `alpha1` stays high; the script never applies the
defensive `lower = min(lower, upper)` clamp the spec prescribes. -/
theorem c6_counterexample :
    0 < (48 : ℚ) / 10000000000 ∧ (48 : ℚ) / 10000000000 < 1 ∧
      (bca_bootstrap ceEnv ceData ceStat 6 (48 / 10000000000) 5).1.isRecord = true ∧
      (bca_bootstrap ceEnv ceData ceStat 6 (48 / 10000000000) 5).1.upperD <
        (bca_bootstrap ceEnv ceData ceStat 6 (48 / 10000000000) 5).1.lowerD := by
  with_unfolding_all decide

/-- C9 counterexample: for the fixed sample, statistic and
`n_bootstrap` of `c6_counterexample`, decreasing `alpha` from `1/20` to
`4.8e-9` does not widen the interval: the new upper bound drops
strictly below the old one (the lowered `alpha` pushes the second BCa
denominator across its pole). -/
theorem c9_counterexample :
    (48 : ℚ) / 10000000000 < 1 / 20 ∧
      (bca_bootstrap ceEnv ceData ceStat 6 (1 / 20) 5).1.isRecord = true ∧
      (bca_bootstrap ceEnv ceData ceStat 6 (48 / 10000000000) 5).1.isRecord = true ∧
      (bca_bootstrap ceEnv ceData ceStat 6 (48 / 10000000000) 5).1.upperD <
        (bca_bootstrap ceEnv ceData ceStat 6 (1 / 20) 5).1.upperD := by
  with_unfolding_all decide

/-- The environment `idEnv` satisfies the clamp-range quantile bound. -/
theorem ppfBounded_idEnv : PpfBounded idEnv := by
  intro x h1 h2
  have hx : idEnv.ppf x = x := rfl
  rw [hx]
  rw [abs_le]
  constructor <;> linarith

/-- The environment `idEnv` has a monotone distribution table. -/
theorem monotone_cdf_idEnv : Monotone idEnv.cdf := fun _ _ h => h

/-- C6 (amended): Interval ordering on the non-degenerate range.  For
every valid input whose normal quantiles at `alpha/2` and `1 - alpha/2`
have magnitude at most `2.8` (true for every `alpha ≥ 0.01` under the
real normal quantile), the acceleration bound `|a| ≤ 1/6` keeps both
BCa denominators above `1/60`, the adjusted probabilities are ordered,
and the returned interval satisfies `lower ≤ upper`.  The code performs
no defensive `lower = min(lower, upper)` clamp, and for extreme `alpha`
a denominator crosses its pole and the interval crosses
(`c6_counterexample`). -/
theorem c6_interval_ordering (E : NumEnv) (data : List ℚ) (f : Stat) (B : ℕ)
    (alpha : ℚ) (g : ℕ) (h5 : 5 ≤ data.length) (hB : 1 ≤ B) (hsq : SqrtOk E)
    (hppf : PpfBounded E) (hcdf : Monotone E.cdf)
    (hzlo : |E.ppf (alpha / 2)| ≤ 28 / 10) (hzhi : |E.ppf (1 - alpha / 2)| ≤ 28 / 10)
    (hlohi : E.ppf (alpha / 2) ≤ E.ppf (1 - alpha / 2)) :
    ∃ r : BcaRecord, (bca_bootstrap E data f B alpha g).1 = .record r ∧
      r.lower_bound ≤ r.upper_bound := by
  obtain ⟨r, hr, -, -, -, -, hord⟩ :=
    bca_ordered_record E data f B alpha g h5 hB hsq hppf hcdf hzlo hzhi hlohi
  exact ⟨r, by rw [hr], hord⟩

/-- Witness for `c6_interval_ordering` on a concrete call with the
default `alpha = 0.05`. -/
theorem c6_interval_ordering_witness :
    (5 ≤ ([(0 : ℚ), 1, 2, 3, 4]).length) ∧
      ∃ r : BcaRecord,
        (bca_bootstrap idEnv [(0 : ℚ), 1, 2, 3, 4] meanStat 2 (1 / 20) 0).1 = .record r ∧
          r.lower_bound ≤ r.upper_bound :=
  ⟨by decide,
    c6_interval_ordering idEnv [(0 : ℚ), 1, 2, 3, 4] meanStat 2 (1 / 20) 0 (by decide)
      (by decide) sqrtOk_idEnv ppfBounded_idEnv monotone_cdf_idEnv (by norm_num [idEnv, abs_le])
      (by norm_num [idEnv, abs_le]) (by norm_num [idEnv, abs_le])⟩

/-- C8: Bounds sanity for proportions.  For every sample of length at
least 5 with all observations in `{0, 1}` and the arithmetic-mean
statistic, under the same standard quantile-magnitude bounds as
`c6_interval_ordering` (true for the default `alpha = 0.05`), the
returned interval satisfies `0 ≤ lower ≤ upper ≤ 1`: every bootstrap
estimate is a mean of zeros and ones, and both bounds are percentiles
of that distribution. -/
theorem c8_proportion_bounds (E : NumEnv) (data : List ℚ) (B : ℕ) (alpha : ℚ)
    (g : ℕ) (h5 : 5 ≤ data.length) (hB : 1 ≤ B)
    (hbin : ∀ x ∈ data, x = 0 ∨ x = 1) (hsq : SqrtOk E) (hppf : PpfBounded E)
    (hcdf : Monotone E.cdf) (hzlo : |E.ppf (alpha / 2)| ≤ 28 / 10)
    (hzhi : |E.ppf (1 - alpha / 2)| ≤ 28 / 10)
    (hlohi : E.ppf (alpha / 2) ≤ E.ppf (1 - alpha / 2)) :
    ∃ r : BcaRecord, (bca_bootstrap E data meanStat B alpha g).1 = .record r ∧
      0 ≤ r.lower_bound ∧ r.lower_bound ≤ r.upper_bound ∧ r.upper_bound ≤ 1 := by
  have hd : data ≠ [] := by
    intro hcon
    rw [hcon] at h5
    simp at h5
  have hbne : (bootstrapEstimates E data meanStat B (E.seedOf 42)).1 ≠ [] :=
    bootstrapEstimates_ne_nil E data meanStat _ hB
  obtain ⟨r, hr, ha1, ha2, hlo, hhi, hord⟩ :=
    bca_ordered_record E data meanStat B alpha g h5 hB hsq hppf hcdf hzlo hzhi hlohi
  have hboot01 : ∀ y ∈ (bootstrapEstimates E data meanStat B (E.seedOf 42)).1,
      0 ≤ y ∧ y ≤ 1 := by
    intro y hy
    rcases bootstrapEstimates_mem E data meanStat hd B _ y hy with ⟨s, hslen, hsmem, rfl⟩
    have hsne : s ≠ [] := by
      intro hcon
      rw [hcon] at hslen
      simp at hslen
      omega
    refine meanStat_mem_unit hsne fun x hx => ?_
    rcases hbin x (hsmem x hx) with h | h <;> rw [h] <;> norm_num
  have hq1 := adjProb_mem E data meanStat (E.ppf (alpha / 2))
  have hq2 := adjProb_mem E data meanStat (E.ppf (1 - alpha / 2))
  have hblo := percentile_bounds hbne hboot01
    (by rw [ha1]; linarith [hq1.1]) (by rw [ha1]; linarith [hq1.2]) hlo
  have hbhi := percentile_bounds hbne hboot01
    (by rw [ha2]; linarith [hq2.1]) (by rw [ha2]; linarith [hq2.2]) hhi
  exact ⟨r, by rw [hr], hblo.1, hord, hbhi.2⟩

/-- Witness for `c8_proportion_bounds` on a concrete binary sample at
the default `alpha = 0.05`. -/
theorem c8_proportion_bounds_witness :
    (5 ≤ ([(0 : ℚ), 1, 0, 1, 1]).length) ∧
      ∃ r : BcaRecord,
        (bca_bootstrap idEnv [(0 : ℚ), 1, 0, 1, 1] meanStat 2 (1 / 20) 0).1 = .record r ∧
          0 ≤ r.lower_bound ∧ r.lower_bound ≤ r.upper_bound ∧ r.upper_bound ≤ 1 :=
  ⟨by decide,
    c8_proportion_bounds idEnv [(0 : ℚ), 1, 0, 1, 1] 2 (1 / 20) 0 (by decide) (by decide)
      (by decide) sqrtOk_idEnv ppfBounded_idEnv monotone_cdf_idEnv (by norm_num [idEnv, abs_le])
      (by norm_num [idEnv, abs_le]) (by norm_num [idEnv, abs_le])⟩

/-- C9 (amended): Monotonicity in `alpha` on the non-degenerate range.
For a fixed sample, statistic and resample count, if `alphaN ≤ alpha`
and the normal quantiles of both levels stay within the standard
`2.8` magnitude bound (true whenever both levels are at least `0.01`),
then both runs take the BCa branch with positive denominators and the
smaller level produces a wider interval: its lower bound is at most the
old lower bound and its upper bound at least the old upper bound.
Beyond that range a denominator pole breaks monotonicity
(`c9_counterexample`). -/
theorem c9_alpha_monotonicity (E : NumEnv) (data : List ℚ) (f : Stat) (B : ℕ)
    (alpha alphaN : ℚ) (g : ℕ) (h5 : 5 ≤ data.length) (hB : 1 ≤ B) (hsq : SqrtOk E)
    (hppf : PpfBounded E) (hcdf : Monotone E.cdf)
    (hzlo : |E.ppf (alpha / 2)| ≤ 28 / 10) (hzhi : |E.ppf (1 - alpha / 2)| ≤ 28 / 10)
    (hzloN : |E.ppf (alphaN / 2)| ≤ 28 / 10) (hzhiN : |E.ppf (1 - alphaN / 2)| ≤ 28 / 10)
    (hlohi : E.ppf (alpha / 2) ≤ E.ppf (1 - alpha / 2))
    (hlohiN : E.ppf (alphaN / 2) ≤ E.ppf (1 - alphaN / 2))
    (hmlo : E.ppf (alphaN / 2) ≤ E.ppf (alpha / 2))
    (hmhi : E.ppf (1 - alpha / 2) ≤ E.ppf (1 - alphaN / 2)) :
    ∃ r rN : BcaRecord,
      (bca_bootstrap E data f B alpha g).1 = .record r ∧
        (bca_bootstrap E data f B alphaN g).1 = .record rN ∧
        rN.lower_bound ≤ r.lower_bound ∧ r.upper_bound ≤ rN.upper_bound := by
  have hbne : (bootstrapEstimates E data f B (E.seedOf 42)).1 ≠ [] :=
    bootstrapEstimates_ne_nil E data f _ hB
  obtain ⟨r, hr, ha1, ha2, hlo, hhi, -⟩ :=
    bca_ordered_record E data f B alpha g h5 hB hsq hppf hcdf hzlo hzhi hlohi
  obtain ⟨rN, hrN, ha1N, ha2N, hloN, hhiN, -⟩ :=
    bca_ordered_record E data f B alphaN g h5 hB hsq hppf hcdf hzloN hzhiN hlohiN
  have hm1 : rN.alpha1 ≤ r.alpha1 := by
    rw [ha1, ha1N]
    exact adjProb_mono E data f hsq hppf hcdf hmlo hzloN hzlo
  have hm2 : r.alpha2 ≤ rN.alpha2 := by
    rw [ha2, ha2N]
    exact adjProb_mono E data f hsq hppf hcdf hmhi hzhi hzhiN
  have hq1 := adjProb_mem E data f (E.ppf (alpha / 2))
  have hq1N := adjProb_mem E data f (E.ppf (alphaN / 2))
  have hq2 := adjProb_mem E data f (E.ppf (1 - alpha / 2))
  have hq2N := adjProb_mem E data f (E.ppf (1 - alphaN / 2))
  have hlow : rN.lower_bound ≤ r.lower_bound := by
    refine percentile_mono hbne ?_ ?_ ?_ hloN hlo
    · rw [ha1N]; linarith [hq1N.1]
    · linarith [hm1]
    · rw [ha1]; linarith [hq1.2]
  have hup : r.upper_bound ≤ rN.upper_bound := by
    refine percentile_mono hbne ?_ ?_ ?_ hhi hhiN
    · rw [ha2]; linarith [hq2.1]
    · linarith [hm2]
    · rw [ha2N]; linarith [hq2N.2]
  exact ⟨r, rN, by rw [hr], by rw [hrN], hlow, hup⟩

/-- Witness for `c9_alpha_monotonicity`: decreasing `alpha` from `1/20`
to `1/100` on a concrete call. -/
theorem c9_alpha_monotonicity_witness :
    (5 ≤ ([(0 : ℚ), 1, 2, 3, 4]).length) ∧
      ∃ r rN : BcaRecord,
        (bca_bootstrap idEnv [(0 : ℚ), 1, 2, 3, 4] meanStat 2 (1 / 20) 0).1 = .record r ∧
          (bca_bootstrap idEnv [(0 : ℚ), 1, 2, 3, 4] meanStat 2 (1 / 100) 0).1 = .record rN ∧
          rN.lower_bound ≤ r.lower_bound ∧ r.upper_bound ≤ rN.upper_bound :=
  ⟨by decide,
    c9_alpha_monotonicity idEnv [(0 : ℚ), 1, 2, 3, 4] meanStat 2 (1 / 20) (1 / 100) 0
      (by decide) (by decide) sqrtOk_idEnv ppfBounded_idEnv monotone_cdf_idEnv
      (by norm_num [idEnv, abs_le]) (by norm_num [idEnv, abs_le]) (by norm_num [idEnv, abs_le])
      (by norm_num [idEnv, abs_le]) (by norm_num [idEnv, abs_le]) (by norm_num [idEnv, abs_le])
      (by norm_num [idEnv, abs_le]) (by norm_num [idEnv, abs_le])⟩
